import Mathlib

/-!
Shallow embedding of urlpy (src/urlpy.py), a URL sanitizing library.

URL field strings are modeled as byte sequences (List (Fin 256)).  This is
the Python 2 str semantics that the library explicitly supports, and it is
the level at which the percent-encoding collaborators (urllib quote and
unquote, treated by the spec as external percent-encoding services) operate:
quote escapes each unsafe byte as a percent sign followed by two uppercase
hex digits, unquote decodes a percent sign followed by two hex digits as one
byte and passes anything else through literally.
-/

namespace Urlpy

abbrev Byte := Fin 256

abbrev Str := List Byte

/-- Build a byte from a natural number (reduced mod 256). -/
def byte (k : Nat) : Byte := ⟨k % 256, Nat.mod_lt _ (by norm_num)⟩

/-- Convert a Lean string literal of ASCII characters into a byte string. -/
def strOf (s : String) : Str := s.data.map (fun c => byte c.toNat)

/-! ## Generic byte-string helpers: split, join, collapse, strip -/

/-- Split a byte string on a delimiter; mirrors the Python str.split method
(always returns at least one piece; the empty string yields one empty piece). -/
def splitB (d : Byte) : Str → List Str
  | [] => [[]]
  | c :: rest =>
    if c = d then [] :: splitB d rest
    else
      match splitB d rest with
      | [] => [[c]]
      | s :: ss => (c :: s) :: ss

/-- Join pieces with a single delimiter byte; mirrors the Python str.join method. -/
def joinB (d : Byte) : List Str → Str
  | [] => []
  | [s] => s
  | s :: rest => s ++ d :: joinB d rest

/-- Collapse runs of two or more copies of a byte down to a single copy;
mirrors re.sub applied with patterns of the form x{2,}. -/
def collapseRuns (d : Byte) : Str → Str
  | [] => []
  | [c] => [c]
  | a :: b :: rest =>
    if a = d ∧ b = d then collapseRuns d (b :: rest)
    else a :: collapseRuns d (b :: rest)

/-- Remove one leading and one trailing copy of a byte; mirrors re.sub with
an alternation of a leading-anchored and a trailing-anchored single byte. -/
def stripOnce (d : Byte) (s : Str) : Str :=
  let s1 := match s with
    | [] => []
    | c :: rest => if c = d then rest else c :: rest
  if s1.getLast? = some d then s1.dropLast else s1

/-! ## Lexicographic sort of byte strings (the Python sorted builtin) -/

/-- Lexicographic comparison of byte strings by byte value, as Python
compares strings. -/
def strLe : Str → Str → Bool
  | [], _ => true
  | _ :: _, [] => false
  | a :: as, b :: bs =>
    if a.val < b.val then true
    else if b.val < a.val then false
    else strLe as bs

/-- The lexicographic order as a relation, for use with sorting lemmas. -/
def strLeR (a b : Str) : Prop := strLe a b = true

instance : DecidableRel strLeR := fun a b => instDecidableEqBool (strLe a b) true

/-- Sort a list of byte strings lexicographically; the output agrees with the
Python sorted builtin (both are sorted rearrangements of the same list under
a total antisymmetric order, hence equal). -/
def sortStrs (l : List Str) : List Str := List.insertionSort strLeR l

/-! ## Percent-encoding services (urllib quote and unquote) -/

/-- Hex digit test covering both cases, as in the pattern [a-fA-F0-9]. -/
def isHexB (b : Byte) : Bool :=
  (48 ≤ b.val && b.val ≤ 57) || (65 ≤ b.val && b.val ≤ 70) || (97 ≤ b.val && b.val ≤ 102)

/-- Numeric value of a hex digit byte. -/
def hexVal (b : Byte) : Nat :=
  if b.val ≤ 57 then b.val - 48 else if b.val ≤ 70 then b.val - 55 else b.val - 87

/-- Uppercase hex digit byte for a value below 16. -/
def hexDigitUpper (k : Nat) : Byte := if k < 10 then byte (48 + k) else byte (55 + k)

/-- Percent-decode: a percent byte followed by two hex digits is one decode
unit; any other byte (including a percent byte not followed by two hex
digits) passes through literally.  Never fails.  Modelled from the spec:
this is the external percent-decode service (urllib unquote). -/
def unquoteChars : Str → Str
  | [] => []
  | c :: h1 :: h2 :: rest2 =>
    if c = byte 37 && isHexB h1 && isHexB h2 then
      byte (16 * hexVal h1 + hexVal h2) :: unquoteChars rest2
    else c :: unquoteChars (h1 :: h2 :: rest2)
  | c :: rest => c :: unquoteChars rest

/-- Percent-encode with a safe set: safe bytes pass through, every other
byte becomes a percent byte followed by two uppercase hex digits.  Modelled
from the spec: this is the external percent-encode service (urllib quote). -/
def quoteChars (safe : Str) : Str → Str
  | [] => []
  | c :: rest =>
    if c ∈ safe then c :: quoteChars safe rest
    else byte 37 :: hexDigitUpper (c.val / 16) :: hexDigitUpper (c.val % 16) :: quoteChars safe rest

/-! ## Character classes and default ports from the source -/

def ALPHA : Str := strOf "ABCDEFGHIJKLMNOPQRSTUVWXYZabcdefghijklmnopqrstuvwxyz"

def DIGIT : Str := strOf "0123456789"

def UNRESERVED : Str := ALPHA ++ DIGIT ++ strOf "-._~"

/-- The sub-delims bytes: bang, dollar, ampersand, apostrophe, parens, star,
plus, comma, semicolon, equals (written numerically). -/
def SUB_DELIMS : Str :=
  [byte 33, byte 36, byte 38, byte 39, byte 40, byte 41, byte 42, byte 43, byte 44, byte 59, byte 61]

def PCHAR : Str := UNRESERVED ++ SUB_DELIMS ++ strOf ":@"

def PATH : Str := PCHAR ++ strOf "/"

def QUERY : Str := PCHAR ++ strOf "/?"

def USERINFO : Str := UNRESERVED ++ SUB_DELIMS ++ strOf ":"

/-- The default ports associated with each scheme. -/
def PORTS : List (Str × Nat) := [(strOf "http", 80), (strOf "https", 443)]

/-- Dictionary get with default None: PORTS.get(scheme, None). -/
def portsGet (s : Str) : Option Nat := (PORTS.find? (fun p => decide (p.1 = s))).map Prod.snd

/-- Dictionary indexing PORTS[scheme]: none models a KeyError being raised. -/
def portsIndex (s : Str) : Option Nat := portsGet s

/-! ## The URL value type -/

@[ext]
structure URLRec where
  scheme : Str
  host : Option Str
  port : Option Nat
  path : Str
  params : Str
  query : Str
  fragment : Option Str
  userinfo : Option Str
deriving DecidableEq

/-- Python truthiness of the port field: None and 0 are falsy. -/
def truthyPort : Option Nat → Bool
  | none => false
  | some n => n != 0

/-- Python truthiness of an optional string: None and the empty string are falsy. -/
def truthyStr : Option Str → Bool
  | none => false
  | some s => !s.isEmpty

/-- Normalization of the params field in the constructor: strip all leading
semicolons, collapse semicolon runs, strip one leading and one trailing
semicolon. -/
def paramsInit (params : Str) : Str :=
  stripOnce (byte 59) (collapseRuns (byte 59) (params.dropWhile (fun c => c = byte 59)))

/-- Normalization of the query field in the constructor: strip all leading
question marks, collapse ampersand runs, strip one leading and one trailing
ampersand. -/
def queryInit (query : Str) : Str :=
  stripOnce (byte 38) (collapseRuns (byte 38) (query.dropWhile (fun c => c = byte 63)))

/-- The URL constructor. -/
def URL.init (scheme : Str) (host : Option Str) (port : Option Nat)
    (path params query : Str) (fragment userinfo : Option Str) : URLRec :=
  { scheme := scheme
    host := host
    port := port
    path := if path = [] then strOf "/" else path
    params := paramsInit params
    query := queryInit query
    fragment := fragment
    userinfo := userinfo }

/-! ## The result of the external URI-syntax parser, and URL.parse -/

/-- Components produced by the external generic URI parser (urlparse).  The
port is an Except value: error models the ValueError raised for an invalid
port, ok carries the parsed optional port. -/
structure SplitResult where
  scheme : Str
  hostname : Option Str
  portParse : Except Unit (Option Nat)
  path : Str
  params : Str
  query : Str
  fragment : Str
  username : Option Str
  password : Option Str

/-- URL.parse applied to the output of the external URI parser: a ValueError
from the port accessor is caught and the port treated as absent; userinfo is
assembled from username and password. -/
def URL.parseResult (p : SplitResult) : URLRec :=
  let port : Option Nat :=
    match p.portParse with
    | .ok v => v
    | .error _ => none
  let userinfo : Option Str :=
    match p.username with
    | none => none
    | some u =>
      if u ≠ [] then
        match p.password with
        | some pw => if pw ≠ [] then some (u ++ byte 58 :: pw) else some u
        | none => some u
      else some u
  URL.init p.scheme p.hostname port p.path p.params p.query (some p.fragment) userinfo

/-! ## Normalization operations -/

def URL.canonical (u : URLRec) : URLRec :=
  { u with
    query := joinB (byte 38) (sortStrs (splitB (byte 38) u.query))
    params := joinB (byte 59) (sortStrs (splitB (byte 59) u.params)) }

def URL.defrag (u : URLRec) : URLRec := { u with fragment := none }

/-- Name part of a query segment: everything before the first equals byte. -/
def partName : Str → Str
  | [] => []
  | c :: rest => if c = byte 61 then [] else c :: partName rest

/-- Value part of a query segment: everything after the first equals byte,
empty when there is none. -/
def partValue : Str → Str
  | [] => []
  | c :: rest => if c = byte 61 then rest else partValue rest

def URL.filter_params (f : Str → Str → Bool) (u : URLRec) : URLRec :=
  { u with
    query := joinB (byte 38)
      ((splitB (byte 38) u.query).filter (fun q => !q.isEmpty && !f (partName q) (partValue q)))
    params := joinB (byte 59)
      ((splitB (byte 59) u.params).filter (fun q => !q.isEmpty && !f (partName q) (partValue q))) }

/-- ASCII lowercase of one byte. -/
def lowerB (c : Byte) : Byte := if 65 ≤ c.val ∧ c.val ≤ 90 then byte (c.val + 32) else c

/-- ASCII lowercase of a byte string (the str.lower method). -/
def lowerStr (s : Str) : Str := s.map lowerB

def URL.deparam (names : List Str) (u : URLRec) : URLRec :=
  URL.filter_params (fun name _ => (names.map lowerStr).contains (lowerStr name)) u

def URL.deuserinfo (u : URLRec) : URLRec := { u with userinfo := none }

/-- One step of the abspath segment walk: double dot pops the stack (a pop
from an empty stack is skipped by short-circuit evaluation) and sets the
directory flag; single dot only sets the flag; anything else is pushed and
clears the flag. -/
def absStep (acc : List Str × Bool) (part : Str) : List Str × Bool :=
  if part = strOf ".." then (acc.1.dropLast, true)
  else if part = strOf "." then (acc.1, true)
  else (acc.1 ++ [part], false)

/-- The path transformation of abspath: collapse slash runs, walk the
slash-separated parts resolving dot and double-dot segments, rejoin, and
append a trailing slash when the directory flag ends set. -/
def abspathChars (p : Str) : Str :=
  let parts := splitB (byte 47) (collapseRuns (byte 47) p)
  let ud := parts.foldl absStep ([], false)
  joinB (byte 47) ud.1 ++ (if ud.2 then [byte 47] else [])

def URL.abspath (u : URLRec) : URLRec := { u with path := abspathChars u.path }

def URL.escape (u : URLRec) : URLRec :=
  { u with
    path := quoteChars PATH (unquoteChars u.path)
    query := quoteChars QUERY (unquoteChars u.query)
    params := quoteChars QUERY (unquoteChars u.params)
    userinfo :=
      if truthyStr u.userinfo then
        (u.userinfo).map (fun ui => quoteChars USERINFO (unquoteChars ui))
      else u.userinfo }

def URL.unescape (u : URLRec) : URLRec := { u with path := unquoteChars u.path }

def URL.sanitize (u : URLRec) : URLRec := URL.escape (URL.abspath u)

/-- remove_default_port: none models the KeyError raised by PORTS[scheme]
when both port and scheme are truthy but the scheme has no entry. -/
def URL.remove_default_port (u : URLRec) : Option URLRec :=
  if truthyPort u.port ∧ truthyStr (some u.scheme) then
    match portsIndex u.scheme with
    | some d => some (if u.port = some d then { u with port := none } else u)
    | none => none
  else some u

/-! ## Equivalence -/

/-- The fixed canonicalization chain used by equiv. -/
def pipeline (u : URLRec) : URLRec := URL.escape (URL.abspath (URL.defrag (URL.canonical u)))

/-- The boolean result of equiv on two URL values. -/
def URL.equiv (u v : URLRec) : Bool :=
  let su := pipeline u
  let sv := pipeline v
  if su.scheme = sv.scheme ∧ su.host = sv.host ∧ su.path = sv.path ∧
      su.params = sv.params ∧ su.query = sv.query then
    if truthyPort su.port ∧ ¬(truthyPort sv.port = true) then decide (su.port = portsGet su.scheme)
    else if truthyPort sv.port ∧ ¬(truthyPort su.port = true) then decide (sv.port = portsGet sv.scheme)
    else decide (su.port = sv.port)
  else false

/-- equiv with its side effects made explicit: since URL.parse returns an
already-constructed URL unchanged, the canonicalization chain inside equiv
runs on the operands themselves; the returned triple is the boolean result
together with the post-call states of the two operands. -/
def URL.equivMut (u v : URLRec) : Bool × URLRec × URLRec :=
  (URL.equiv u v, pipeline u, pipeline v)

/-! ## Predicates and concrete values used to state the claims -/

/-- No two adjacent copies of the byte d occur in s. -/
def noDoubleB (d : Byte) : Str → Bool
  | a :: b :: rest => if a = d ∧ b = d then false else noDoubleB d (b :: rest)
  | _ => true

/-- A field is delimiter-clean: no leading, no trailing and no doubled
occurrence of its delimiter byte. -/
def delimClean (d : Byte) (s : Str) : Prop :=
  s.head? ≠ some d ∧ s.getLast? ≠ some d ∧ noDoubleB d s = true

/-- The data-model invariant asserted by claim C5. -/
def invC5 (u : URLRec) : Prop :=
  u.path ≠ [] ∧ delimClean (byte 59) u.params ∧ delimClean (byte 38) u.query

/-- URL values reachable through the public API: construction followed by any
sequence of the normalization operations the claim names. -/
inductive Reach : URLRec → Prop where
  | init : ∀ scheme host port path params query fragment userinfo,
      Reach (URL.init scheme host port path params query fragment userinfo)
  | canonical : ∀ u, Reach u → Reach (URL.canonical u)
  | defrag : ∀ u, Reach u → Reach (URL.defrag u)
  | deparam : ∀ names u, Reach u → Reach (URL.deparam names u)
  | filter_params : ∀ f u, Reach u → Reach (URL.filter_params f u)
  | abspath : ∀ u, Reach u → Reach (URL.abspath u)
  | escape : ∀ u, Reach u → Reach (URL.escape u)
  | unescape : ∀ u, Reach u → Reach (URL.unescape u)
  | remove_default_port : ∀ u v, Reach u → URL.remove_default_port u = some v → Reach v

/-- Ports match in the sense of the words of claim C1: both absent, both the
same explicit value, or exactly one side has an explicit port equal to the
known default port for the scheme of that side. -/
def portsMatchClaim (pu pv : Option Nat) (su sv : Str) : Prop :=
  (pu = none ∧ pv = none) ∨ (pu ≠ none ∧ pu = pv) ∨
  (pv = none ∧ pu ≠ none ∧ pu = portsGet su) ∨
  (pu = none ∧ pv ≠ none ∧ pv = portsGet sv)

/-- The equivalence condition exactly as claim C1 words it. -/
def equivClaim (u v : URLRec) : Prop :=
  (pipeline u).scheme = (pipeline v).scheme ∧ (pipeline u).host = (pipeline v).host ∧
  (pipeline u).path = (pipeline v).path ∧ (pipeline u).params = (pipeline v).params ∧
  (pipeline u).query = (pipeline v).query ∧
  portsMatchClaim (pipeline u).port (pipeline v).port (pipeline u).scheme (pipeline v).scheme

/-- The port matching rule amended for Python truthiness of the port field:
a port equal to zero counts as absent when deciding which side carries the
explicit port, and otherwise the two port fields must be exactly equal. -/
def portsMatchAmended (pu pv : Option Nat) (su sv : Str) : Prop :=
  pu = pv ∨
  (truthyPort pu = true ∧ truthyPort pv = false ∧ pu = portsGet su) ∨
  (truthyPort pv = true ∧ truthyPort pu = false ∧ pv = portsGet sv)

/-- The equivalence condition of claim C1 with the port rule amended. -/
def equivAmended (u v : URLRec) : Prop :=
  ((pipeline u).scheme = (pipeline v).scheme ∧ (pipeline u).host = (pipeline v).host ∧
    (pipeline u).path = (pipeline v).path ∧ (pipeline u).params = (pipeline v).params ∧
    (pipeline u).query = (pipeline v).query) ∧
  portsMatchAmended (pipeline u).port (pipeline v).port (pipeline u).scheme (pipeline v).scheme

/-- Auxiliary predicate: a processed path part that a second abspath pass
keeps verbatim: it contains no slash byte and is not a dot or a double dot. -/
def keptPart (part : Str) : Prop :=
  byte 47 ∉ part ∧ ¬(part = strOf "..") ∧ ¬(part = strOf ".")

/-- Auxiliary predicate on the abspath stack: every element after the head is
non-empty. -/
def tailNE (us : List Str) : Prop := ∀ x ∈ us.tail, x ≠ []

/-- Parser output for the text http://example.com:80/a/../b . -/
def exSplitA : SplitResult :=
  { scheme := strOf "http", hostname := some (strOf "example.com"), portParse := .ok (some 80),
    path := strOf "/a/../b", params := strOf "", query := strOf "",
    fragment := strOf "", username := none, password := none }

/-- Parser output for the text http://example.com/b . -/
def exSplitB : SplitResult :=
  { scheme := strOf "http", hostname := some (strOf "example.com"), portParse := .ok none,
    path := strOf "/b", params := strOf "", query := strOf "",
    fragment := strOf "", username := none, password := none }

/-- Parser output for the text http://x/a?b=1&a=2 . -/
def exQueryBA : SplitResult :=
  { scheme := strOf "http", hostname := some (strOf "x"), portParse := .ok none,
    path := strOf "/a", params := strOf "", query := strOf "b=1&a=2",
    fragment := strOf "", username := none, password := none }

/-- Parser output for the text http://x/a?a=2&b=1 . -/
def exQueryAB : SplitResult :=
  { scheme := strOf "http", hostname := some (strOf "x"), portParse := .ok none,
    path := strOf "/a", params := strOf "", query := strOf "a=2&b=1",
    fragment := strOf "", username := none, password := none }

/-- Parser output for the text http://x/a . -/
def exHttpA : SplitResult :=
  { scheme := strOf "http", hostname := some (strOf "x"), portParse := .ok none,
    path := strOf "/a", params := strOf "", query := strOf "",
    fragment := strOf "", username := none, password := none }

/-- Parser output for the text https://x/a . -/
def exHttpsA : SplitResult :=
  { scheme := strOf "https", hostname := some (strOf "x"), portParse := .ok none,
    path := strOf "/a", params := strOf "", query := strOf "",
    fragment := strOf "", username := none, password := none }

/-- A URL with the explicit port 0. -/
def exPortZero : URLRec :=
  URL.init (strOf "http") (some (strOf "x")) (some 0) (strOf "/a") (strOf "") (strOf "") none none

/-- The same URL with the explicit default port 80. -/
def exPortDefault : URLRec :=
  URL.init (strOf "http") (some (strOf "x")) (some 80) (strOf "/a") (strOf "") (strOf "") none none

/-- A URL carrying a fragment, used to exhibit the mutation by equiv. -/
def exFrag : URLRec :=
  URL.init (strOf "http") (some (strOf "x")) none (strOf "/p") (strOf "") (strOf "")
    (some (strOf "f")) none

/-- The same URL without the fragment. -/
def exPlain : URLRec :=
  URL.init (strOf "http") (some (strOf "x")) none (strOf "/p") (strOf "") (strOf "") none none

/-- An ftp URL with an explicit port; PORTS has no entry for ftp. -/
def exFtp : URLRec :=
  URL.init (strOf "ftp") (some (strOf "host")) (some 21) (strOf "/") (strOf "") (strOf "") none none

/-- A URL whose path climbs above the root and then descends. -/
def exAbs : URLRec :=
  URL.init (strOf "http") (some (strOf "x")) none (strOf "/a/../../b") (strOf "") (strOf "")
    none none

/-- A URL with query a=1&b=2, used for the deparam examples. -/
def exDeparam : URLRec :=
  URL.init (strOf "http") (some (strOf "x")) none (strOf "/a") (strOf "") (strOf "a=1&b=2")
    none none

/-! ## Basic lemmas about split and join -/

theorem splitB_ne_nil (d : Byte) (l : Str) : splitB d l ≠ [] := by
  cases l with
  | nil => simp [splitB]
  | cons c rest =>
    simp only [splitB]
    split
    · simp
    · rcases hsp : splitB d rest with _ | ⟨s, ss⟩ <;> simp

theorem joinB_cons_ne (d : Byte) (s : Str) (l : List Str) (h : l ≠ []) :
    joinB d (s :: l) = s ++ d :: joinB d l := by
  cases l with
  | nil => exact absurd rfl h
  | cons t ts => simp [joinB]

theorem joinB_splitB (d : Byte) (l : Str) : joinB d (splitB d l) = l := by
  induction l with
  | nil => rfl
  | cons c rest ih =>
    simp only [splitB]
    by_cases hc : c = d
    · rw [if_pos hc, joinB_cons_ne d [] _ (splitB_ne_nil d rest)]
      simp [hc, ih]
    · rw [if_neg hc]
      rcases hsp : splitB d rest with _ | ⟨s, ss⟩
      · exact absurd hsp (splitB_ne_nil d rest)
      · rw [hsp] at ih
        cases ss with
        | nil => simp_all [joinB]
        | cons t ts =>
          rw [joinB_cons_ne d (c :: s) (t :: ts) (by simp)]
          rw [joinB_cons_ne d s (t :: ts) (by simp)] at ih
          simp only [List.cons_append]
          rw [ih]

theorem mem_splitB (d : Byte) (l : Str) : ∀ p ∈ splitB d l, d ∉ p := by
  induction l with
  | nil => intro p hp; simp [splitB] at hp; simp [hp]
  | cons c rest ih =>
    intro p hp
    simp only [splitB] at hp
    by_cases hc : c = d
    · rw [if_pos hc] at hp
      rcases List.mem_cons.mp hp with h | h
      · simp [h]
      · exact ih p h
    · rw [if_neg hc] at hp
      rcases hsp : splitB d rest with _ | ⟨s, ss⟩
      · exact absurd hsp (splitB_ne_nil d rest)
      · rw [hsp] at hp
        rcases List.mem_cons.mp hp with h | h
        · subst h
          intro hmem
          rcases List.mem_cons.mp hmem with h1 | h1
          · exact hc h1.symm
          · exact ih s (by rw [hsp]; exact List.mem_cons_self s ss) h1
        · exact ih p (by rw [hsp]; exact List.mem_cons_of_mem s h)

theorem splitB_no_delim (d : Byte) (p : Str) (h : d ∉ p) : splitB d p = [p] := by
  induction p with
  | nil => rfl
  | cons c cs ih =>
    have hc : ¬(c = d) := fun he => h (by simp [he])
    have hcs : d ∉ cs := fun hm => h (List.mem_cons_of_mem c hm)
    simp only [splitB, if_neg hc, ih hcs]

theorem splitB_append_delim (d : Byte) (p r : Str) (h : d ∉ p) :
    splitB d (p ++ d :: r) = p :: splitB d r := by
  induction p with
  | nil => simp [splitB]
  | cons c cs ih =>
    have hc : ¬(c = d) := fun he => h (by simp [he])
    have hcs : d ∉ cs := fun hm => h (List.mem_cons_of_mem c hm)
    simp only [List.cons_append, splitB, if_neg hc, List.append_eq, ih hcs]

theorem splitB_joinB (d : Byte) (ps : List Str) (hne : ps ≠ [])
    (hp : ∀ p ∈ ps, d ∉ p) : splitB d (joinB d ps) = ps := by
  induction ps with
  | nil => exact absurd rfl hne
  | cons p rest ih =>
    cases rest with
    | nil => exact splitB_no_delim d p (hp p (List.mem_cons_self p []))
    | cons q qs =>
      rw [joinB_cons_ne d p (q :: qs) (by simp)]
      rw [splitB_append_delim d p _ (hp p (List.mem_cons_self p _))]
      rw [ih (by simp) (fun x hx => hp x (List.mem_cons_of_mem p hx))]

theorem splitB_concat_delim (d : Byte) (l : Str) :
    splitB d (l ++ [d]) = splitB d l ++ [[]] := by
  induction l with
  | nil => simp [splitB]
  | cons c rest ih =>
    by_cases hc : c = d
    · simp only [List.cons_append, splitB, if_pos hc, List.append_eq, ih]
    · rcases hsp : splitB d rest with _ | ⟨s, ss⟩
      · exact absurd hsp (splitB_ne_nil d rest)
      · simp only [List.cons_append, splitB, if_neg hc, List.append_eq, ih, hsp]

/-! ## Lemmas about the lexicographic order and sorting -/

theorem strLe_total (a b : Str) : strLe a b = true ∨ strLe b a = true := by
  induction a generalizing b with
  | nil => left; rfl
  | cons x xs ih =>
    cases b with
    | nil => right; rfl
    | cons y ys =>
      simp only [strLe]
      rcases Nat.lt_trichotomy x.val y.val with h | h | h
      · left; simp [h]
      · have h1 : ¬(x.val < y.val) := by omega
        have h2 : ¬(y.val < x.val) := by omega
        simpa [h1, h2] using ih ys
      · right; simp [h]

theorem strLe_trans (a b c : Str) (hab : strLe a b = true) (hbc : strLe b c = true) :
    strLe a c = true := by
  induction a generalizing b c with
  | nil => rfl
  | cons x xs ih =>
    cases b with
    | nil => simp [strLe] at hab
    | cons y ys =>
      cases c with
      | nil => simp [strLe] at hbc
      | cons z zs =>
        simp only [strLe] at hab hbc ⊢
        split at hab
        · rename_i hxy
          split at hbc
          · rename_i hyz
            simp [show x.val < z.val by omega]
          · split at hbc
            · simp at hbc
            · rename_i hyz hzy
              simp [show x.val < z.val by omega]
        · split at hab
          · simp at hab
          · rename_i hxy hyx
            split at hbc
            · rename_i hyz
              simp [show x.val < z.val by omega]
            · split at hbc
              · simp at hbc
              · rename_i hyz hzy
                have h1 : ¬(x.val < z.val) := by omega
                have h2 : ¬(z.val < x.val) := by omega
                simp only [if_neg h1, if_neg h2]
                exact ih ys zs hab hbc

instance : IsTotal Str strLeR := ⟨strLe_total⟩

instance : IsTrans Str strLeR := ⟨strLe_trans⟩

theorem sortStrs_sorted (l : List Str) : List.Sorted strLeR (sortStrs l) :=
  List.sorted_insertionSort strLeR l

theorem sortStrs_of_sorted (l : List Str) (h : List.Sorted strLeR l) : sortStrs l = l :=
  h.insertionSort_eq

theorem sortStrs_idem (l : List Str) : sortStrs (sortStrs l) = sortStrs l :=
  sortStrs_of_sorted _ (sortStrs_sorted l)

theorem mem_sortStrs (l : List Str) (x : Str) : x ∈ sortStrs l ↔ x ∈ l :=
  List.mem_insertionSort strLeR

theorem sortStrs_ne_nil (l : List Str) (h : l ≠ []) : sortStrs l ≠ [] := by
  intro he
  cases l with
  | nil => exact h rfl
  | cons a as =>
    have : a ∈ sortStrs (a :: as) := (mem_sortStrs _ a).mpr (List.mem_cons_self a as)
    rw [he] at this
    exact List.not_mem_nil a this

/-! ## Lemmas about query segment splitting at the first equals byte -/

theorem partName_no_eq (s : Str) (h : byte 61 ∉ s) : partName s = s := by
  induction s with
  | nil => rfl
  | cons c cs ih =>
    have hc : ¬(c = byte 61) := fun he => h (by simp [he])
    have hcs : byte 61 ∉ cs := fun hm => h (List.mem_cons_of_mem c hm)
    simp [partName, if_neg hc, ih hcs]

theorem partValue_no_eq (s : Str) (h : byte 61 ∉ s) : partValue s = [] := by
  induction s with
  | nil => rfl
  | cons c cs ih =>
    have hc : ¬(c = byte 61) := fun he => h (by simp [he])
    have hcs : byte 61 ∉ cs := fun hm => h (List.mem_cons_of_mem c hm)
    simp [partValue, if_neg hc, ih hcs]

theorem partName_split (n v : Str) (h : byte 61 ∉ n) : partName (n ++ byte 61 :: v) = n := by
  induction n with
  | nil => simp [partName]
  | cons c cs ih =>
    have hc : ¬(c = byte 61) := fun he => h (by simp [he])
    have hcs : byte 61 ∉ cs := fun hm => h (List.mem_cons_of_mem c hm)
    simp [partName, if_neg hc, ih hcs]

theorem partValue_split (n v : Str) (h : byte 61 ∉ n) : partValue (n ++ byte 61 :: v) = v := by
  induction n with
  | nil => simp [partValue]
  | cons c cs ih =>
    have hc : ¬(c = byte 61) := fun he => h (by simp [he])
    have hcs : byte 61 ∉ cs := fun hm => h (List.mem_cons_of_mem c hm)
    simp [partValue, if_neg hc, ih hcs]

/-! ## Lemmas about the abspath directory flag -/

theorem absStep_flag (acc : List Str × Bool) (part : Str) :
    (absStep acc part).2 = decide (part = strOf ".." ∨ part = strOf ".") := by
  unfold absStep
  by_cases h1 : part = strOf ".."
  · subst h1
    rw [if_pos rfl]
    simp
  · by_cases h2 : part = strOf "."
    · subst h2
      rw [if_neg (by decide), if_pos rfl]
      simp
    · simp [h1, h2]

theorem foldl_absStep_flag (parts : List Str) (h : parts ≠ []) (acc : List Str × Bool) :
    (parts.foldl absStep acc).2
      = decide (parts.getLast? = some (strOf "..") ∨ parts.getLast? = some (strOf ".")) := by
  rcases List.eq_nil_or_concat parts with rfl | ⟨l, a, rfl⟩
  · exact absurd rfl h
  · rw [List.concat_eq_append, List.foldl_append, List.foldl_cons, List.foldl_nil,
      absStep_flag, List.getLast?_concat]
    simp

/-! ## Claim theorems: error handling and construction -/

/-- C4: the claim says remove_default_port succeeds without raising for every
URL; in the code the condition evaluates PORTS[scheme] whenever both port and
scheme are truthy, which raises KeyError when the scheme has no known default,
as on an ftp URL with an explicit port. -/
theorem claim_c4_code_eval : URL.remove_default_port exFtp = none := by decide

/-- C2: the claim says equiv never mutates either operand; in the code
URL.parse returns an already-constructed URL unchanged, so the chain
canonical, defrag, abspath, escape inside equiv runs on the operands
themselves: after this concrete call the first operand has lost its
fragment. -/
theorem claim_c2_code_eval :
    exFrag.fragment = some (strOf "f") ∧
    (URL.equivMut exFrag exPlain).2.1.fragment = none := by decide

/-- C9: when the external parser fails to produce a valid port (the port
accessor raises ValueError, modeled as an error value), URL.parse catches it
and builds the URL with an absent port, all other components parsed as
usual. -/
theorem claim_c9_invalid_port (p : SplitResult) (h : p.portParse = Except.error ()) :
    (URL.parseResult p).port = none ∧
    URL.parseResult p = URL.parseResult { p with portParse := Except.ok none } := by
  refine ⟨?_, ?_⟩ <;> simp [URL.parseResult, URL.init, h]

/-- C9 witness: a concrete parser output with an invalid port yields an
absent port. -/
theorem claim_c9_witness :
    (URL.parseResult
      { scheme := strOf "http", hostname := some (strOf "x"), portParse := Except.error (),
        path := strOf "/", params := strOf "", query := strOf "",
        fragment := strOf "", username := none, password := none }).port = none :=
  (claim_c9_invalid_port _ rfl).1

/-- C10: at construction any leading run of question-mark bytes is stripped
from the query string before the ampersand-delimiter normalization, so a
query supplied as ?a=1&b=2 is stored as a=1&b=2; the params and path fields
get no such extra stripping. -/
theorem claim_c10_query_qmark :
    (∀ scheme host port path params query fragment userinfo,
      (URL.init scheme host port path params query fragment userinfo).query
        = stripOnce (byte 38) (collapseRuns (byte 38)
            (query.dropWhile (fun c => c = byte 63)))) ∧
    (URL.init (strOf "http") none none (strOf "/") (strOf "") (strOf "?a=1&b=2")
        none none).query = strOf "a=1&b=2" ∧
    (URL.init (strOf "http") none none (strOf "/") (strOf "?p;q") (strOf "")
        none none).params = strOf "?p;q" ∧
    (URL.init (strOf "http") none none (strOf "?x") (strOf "") (strOf "")
        none none).path = strOf "?x" := by
  refine ⟨fun _ _ _ _ _ _ _ _ => rfl, by decide, by decide, by decide⟩

/-! ## Claim theorems: filtering and percent decoding -/

/-- C7: filter_params removes exactly the query and params segments on which
the predicate holds for the pair obtained by splitting a segment at its first
equals byte (value empty when there is none), drops empty segments and keeps
the survivors in input order; deparam is filter_params with a predicate
comparing lowercased names against the lowercased given names, so deparam
with name a on query a=1&b=2 yields b=2 and deparam with name A does too. -/
theorem claim_c7_filter_deparam :
    (∀ f u, (URL.filter_params f u).query
        = joinB (byte 38) ((splitB (byte 38) u.query).filter
            (fun q => !q.isEmpty && !f (partName q) (partValue q))) ∧
      (URL.filter_params f u).params
        = joinB (byte 59) ((splitB (byte 59) u.params).filter
            (fun q => !q.isEmpty && !f (partName q) (partValue q)))) ∧
    (∀ names u, URL.deparam names u
        = URL.filter_params (fun name _ => (names.map lowerStr).contains (lowerStr name)) u) ∧
    (∀ n v, byte 61 ∉ n →
      partName (n ++ byte 61 :: v) = n ∧ partValue (n ++ byte 61 :: v) = v) ∧
    (∀ s, byte 61 ∉ s → partName s = s ∧ partValue s = []) ∧
    (URL.deparam [strOf "a"] exDeparam).query = strOf "b=2" ∧
    (URL.deparam [strOf "A"] exDeparam).query = strOf "b=2" := by
  refine ⟨fun f u => ⟨rfl, rfl⟩, fun names u => rfl,
    fun n v h => ⟨partName_split n v h, partValue_split n v h⟩,
    fun s h => ⟨partName_no_eq s h, partValue_no_eq s h⟩, by decide, by decide⟩

/-- C7 witness: the splitting rules instantiated on the concrete segment
x=1. -/
theorem claim_c7_witness :
    partName (strOf "x" ++ byte 61 :: strOf "1") = strOf "x" ∧
    partValue (strOf "x" ++ byte 61 :: strOf "1") = strOf "1" :=
  claim_c7_filter_deparam.2.2.1 (strOf "x") (strOf "1") (by decide)

/-- C8: percent decoding never fails: a percent byte followed by two hex
digits is decoded as one unit, a percent byte not so followed passes through
literally, and any other byte passes through; unescape decodes the path this
way, and escape decodes each field this way before re-encoding. -/
theorem claim_c8_percent_decode :
    (∀ h1 h2 rest, isHexB h1 = true → isHexB h2 = true →
      unquoteChars (byte 37 :: h1 :: h2 :: rest)
        = byte (16 * hexVal h1 + hexVal h2) :: unquoteChars rest) ∧
    (∀ c rest, c ≠ byte 37 → unquoteChars (c :: rest) = c :: unquoteChars rest) ∧
    (∀ h1 h2 rest, ¬(isHexB h1 = true ∧ isHexB h2 = true) →
      unquoteChars (byte 37 :: h1 :: h2 :: rest)
        = byte 37 :: unquoteChars (h1 :: h2 :: rest)) ∧
    (∀ c, unquoteChars [byte 37, c] = byte 37 :: unquoteChars [c]) ∧
    unquoteChars [byte 37] = [byte 37] ∧
    (∀ u, (URL.unescape u).path = unquoteChars u.path ∧
      (URL.escape u).path = quoteChars PATH (unquoteChars u.path) ∧
      (URL.escape u).query = quoteChars QUERY (unquoteChars u.query) ∧
      (URL.escape u).params = quoteChars QUERY (unquoteChars u.params)) := by
  refine ⟨?_, ?_, ?_, ?_, ?_, fun u => ⟨rfl, rfl, rfl, rfl⟩⟩
  · intro h1 h2 rest hh1 hh2
    simp [unquoteChars, hh1, hh2]
  · intro c rest hc
    rcases rest with _ | ⟨a, _ | ⟨b, r⟩⟩ <;> simp [unquoteChars, hc]
  · intro h1 h2 rest hno
    by_cases hh1 : isHexB h1 = true
    · have hh2 : isHexB h2 = false := by
        cases hh2p : isHexB h2
        · rfl
        · exact absurd ⟨hh1, hh2p⟩ hno
      simp [unquoteChars, hh1, hh2]
    · have hh1f : isHexB h1 = false := by
        cases hh1p : isHexB h1
        · rfl
        · exact absurd hh1p hh1
      simp [unquoteChars, hh1f]
  · intro c
    simp [unquoteChars]
  · simp [unquoteChars]

/-- C8 witness: the decode unit rule applied to the concrete bytes of the
text %41, which decode to the byte 65. -/
theorem claim_c8_witness :
    unquoteChars [byte 37, byte 52, byte 49] = [byte 65] := by
  rw [claim_c8_percent_decode.1 (byte 52) (byte 49) [] (by decide) (by decide)]
  decide

/-! ## Lemmas about collapsing runs and stripping delimiters -/

theorem collapseRuns_cons (d b : Byte) (rest : Str) :
    ∃ t, collapseRuns d (b :: rest) = b :: t := by
  induction rest generalizing b with
  | nil => exact ⟨[], rfl⟩
  | cons r2 rest2 ih =>
    simp only [collapseRuns]
    by_cases h : b = d ∧ r2 = d
    · rw [if_pos h]
      obtain ⟨t, ht⟩ := ih r2
      exact ⟨t, by rw [ht, h.1, h.2]⟩
    · rw [if_neg h]
      exact ⟨collapseRuns d (r2 :: rest2), rfl⟩

theorem noDoubleB_collapseRuns (d : Byte) (s : Str) :
    noDoubleB d (collapseRuns d s) = true := by
  induction s with
  | nil => rfl
  | cons a s1 ih =>
    cases s1 with
    | nil => rfl
    | cons b rest =>
      simp only [collapseRuns]
      by_cases h : a = d ∧ b = d
      · rw [if_pos h]
        exact ih
      · rw [if_neg h]
        obtain ⟨t, ht⟩ := collapseRuns_cons d b rest
        rw [ht]
        simp only [noDoubleB, if_neg h]
        rw [← ht]
        exact ih

theorem noDoubleB_tail (d a : Byte) (l : Str) (h : noDoubleB d (a :: l) = true) :
    noDoubleB d l = true := by
  cases l with
  | nil => rfl
  | cons b rest =>
    simp only [noDoubleB] at h
    split at h
    · exact absurd h (by simp)
    · exact h

theorem noDoubleB_dropLast (d : Byte) (l : Str) (h : noDoubleB d l = true) :
    noDoubleB d l.dropLast = true := by
  induction l with
  | nil => rfl
  | cons a tail ih =>
    cases tail with
    | nil => rfl
    | cons b rest =>
      have hcond : ¬(a = d ∧ b = d) := by
        simp only [noDoubleB] at h
        intro hc
        rw [if_pos hc] at h
        exact absurd h (by simp)
      cases rest with
      | nil => simp [noDoubleB]
      | cons c rest2 =>
        have h2 := noDoubleB_tail d a _ h
        have ih2 := ih h2
        simp only [List.dropLast] at ih2 ⊢
        simp only [noDoubleB, if_neg hcond]
        exact ih2

theorem getLast_dropLast_ne (d : Byte) (l : Str) (hnd : noDoubleB d l = true)
    (hl : l.getLast? = some d) : (l.dropLast).getLast? ≠ some d := by
  induction l with
  | nil => simp at hl
  | cons a tail ih =>
    cases tail with
    | nil =>
      simp
    | cons b rest =>
      have hcond : ¬(a = d ∧ b = d) := by
        simp only [noDoubleB] at hnd
        intro hc
        rw [if_pos hc] at hnd
        exact absurd hnd (by simp)
      have h2 := noDoubleB_tail d a _ hnd
      have hl2 : (b :: rest).getLast? = some d := by
        rw [← hl]
        simp [List.getLast?_cons_cons]
      cases rest with
      | nil =>
        have hb : b = d := by simpa using hl2
        have ha : ¬(a = d) := fun haa => hcond ⟨haa, hb⟩
        simpa using ha
      | cons c rest2 =>
        have ihr := ih h2 hl2
        have hne : (b :: c :: rest2).dropLast ≠ [] := by
          simp [List.dropLast]
        intro hcontra
        apply ihr
        rw [← hcontra]
        cases hdl : (b :: c :: rest2).dropLast with
        | nil => exact absurd hdl hne
        | cons x xs =>
          simp only [List.dropLast] at hdl ⊢
          rw [hdl]
          simp [List.getLast?_cons_cons]

theorem head_dropLast_ne (d : Byte) (l : Str) (h : l.head? ≠ some d) :
    (l.dropLast).head? ≠ some d := by
  cases l with
  | nil => simp
  | cons a tail =>
    cases tail with
    | nil => simp
    | cons b rest =>
      simpa [List.dropLast] using h

theorem stripOnce_head_ne (d : Byte) (s : Str) (h : noDoubleB d s = true) :
    delimClean d (stripOnce d s) := by
  have hs1 : ∀ s1 : Str, s1.head? ≠ some d → noDoubleB d s1 = true →
      delimClean d (if s1.getLast? = some d then s1.dropLast else s1) := by
    intro s1 hh hnd
    by_cases hl : s1.getLast? = some d
    · rw [if_pos hl]
      exact ⟨head_dropLast_ne d s1 hh, getLast_dropLast_ne d s1 hnd hl,
        noDoubleB_dropLast d s1 hnd⟩
    · rw [if_neg hl]
      exact ⟨hh, hl, hnd⟩
  unfold stripOnce
  cases s with
  | nil => exact hs1 [] (by simp) rfl
  | cons c rest =>
    by_cases hc : c = d
    · simp only [if_pos hc]
      refine hs1 rest ?_ (noDoubleB_tail d c rest h)
      cases rest with
      | nil => simp
      | cons b rest2 =>
        have : ¬(c = d ∧ b = d) := by
          simp only [noDoubleB] at h
          intro hcc
          rw [if_pos hcc] at h
          exact absurd h (by simp)
        intro hb
        exact this ⟨hc, by simpa using hb⟩
    · simp only [if_neg hc]
      refine hs1 (c :: rest) ?_ h
      simpa using hc

/-! ## Idempotence of canonical -/

theorem canonicalStr_idem (d : Byte) (q : Str) :
    joinB d (sortStrs (splitB d (joinB d (sortStrs (splitB d q)))))
      = joinB d (sortStrs (splitB d q)) := by
  have h1 : splitB d (joinB d (sortStrs (splitB d q))) = sortStrs (splitB d q) :=
    splitB_joinB d _ (sortStrs_ne_nil _ (splitB_ne_nil d q))
      (fun p hp => mem_splitB d q p ((mem_sortStrs _ p).mp hp))
  rw [h1, sortStrs_idem]

theorem canonical_idem (u : URLRec) : URL.canonical (URL.canonical u) = URL.canonical u := by
  simp [URL.canonical, canonicalStr_idem]

/-! ## Idempotence of escape -/

theorem unquoteChars_cons_ne (c : Byte) (rest : Str) (h : ¬(c = byte 37)) :
    unquoteChars (c :: rest) = c :: unquoteChars rest := by
  rcases rest with _ | ⟨a, _ | ⟨b, r⟩⟩ <;> simp [unquoteChars, h]

theorem unquoteChars_decode (h1 h2 : Byte) (rest : Str) (hh1 : isHexB h1 = true)
    (hh2 : isHexB h2 = true) :
    unquoteChars (byte 37 :: h1 :: h2 :: rest)
      = byte (16 * hexVal h1 + hexVal h2) :: unquoteChars rest := by
  simp [unquoteChars, hh1, hh2]

theorem hexDigitUpper_spec : ∀ n : Nat, n < 16 →
    isHexB (hexDigitUpper n) = true ∧ hexVal (hexDigitUpper n) = n := by decide

theorem byte_val (c : Byte) : byte c.val = c := by
  apply Fin.ext
  simp [byte, Nat.mod_eq_of_lt c.isLt]

theorem unquote_quote (safe : Str) (h37 : byte 37 ∉ safe) (t : Str) :
    unquoteChars (quoteChars safe t) = t := by
  induction t with
  | nil => rfl
  | cons c rest ih =>
    simp only [quoteChars]
    by_cases hc : c ∈ safe
    · rw [if_pos hc, unquoteChars_cons_ne c _ (fun he => h37 (he ▸ hc)), ih]
    · have hlt := c.isLt
      rw [if_neg hc]
      have hd1 := hexDigitUpper_spec (c.val / 16) (by omega)
      have hd2 := hexDigitUpper_spec (c.val % 16) (by omega)
      rw [unquoteChars_decode _ _ _ hd1.1 hd2.1, hd1.2, hd2.2, Nat.div_add_mod, byte_val, ih]

theorem unquoteChars_ne_nil (s : Str) (h : s ≠ []) : unquoteChars s ≠ [] := by
  rcases s with _ | ⟨c, _ | ⟨a, _ | ⟨b, r⟩⟩⟩
  · exact absurd rfl h
  · simp [unquoteChars]
  · simp [unquoteChars]
  · simp only [unquoteChars]
    split <;> simp

theorem quoteChars_ne_nil (safe : Str) (s : Str) (h : s ≠ []) : quoteChars safe s ≠ [] := by
  rcases s with _ | ⟨c, r⟩
  · exact absurd rfl h
  · simp only [quoteChars]
    split <;> simp

theorem percent_not_safe_path : byte 37 ∉ PATH := by decide

theorem percent_not_safe_query : byte 37 ∉ QUERY := by decide

theorem percent_not_safe_userinfo : byte 37 ∉ USERINFO := by decide

theorem quoted_field_fix (safe : Str) (h37 : byte 37 ∉ safe) (s : Str) :
    quoteChars safe (unquoteChars (quoteChars safe (unquoteChars s)))
      = quoteChars safe (unquoteChars s) := by
  rw [unquote_quote safe h37]

theorem truthyStr_some_ne (s : Str) (h : s ≠ []) : truthyStr (some s) = true := by
  cases s with
  | nil => exact absurd rfl h
  | cons c cs => rfl

theorem escape_idem (u : URLRec) : URL.escape (URL.escape u) = URL.escape u := by
  have hpath := quoted_field_fix PATH percent_not_safe_path u.path
  have hquery := quoted_field_fix QUERY percent_not_safe_query u.query
  have hparams := quoted_field_fix QUERY percent_not_safe_query u.params
  rcases hu : u.userinfo with _ | ui
  · simp [URL.escape, truthyStr, hu, hpath, hquery, hparams]
  · by_cases hne : ui = []
    · subst hne
      simp [URL.escape, truthyStr, hu, hpath, hquery, hparams]
    · have hw : quoteChars USERINFO (unquoteChars ui) ≠ [] :=
        quoteChars_ne_nil _ _ (unquoteChars_ne_nil _ hne)
      simp [URL.escape, hu, hpath, hquery, hparams, truthyStr_some_ne _ hne,
        truthyStr_some_ne _ hw, quoted_field_fix USERINFO percent_not_safe_userinfo ui]

/-- C5 counterexample: the claimed invariant does not hold of every URL value
reachable through the public API: constructing a URL with the relative path
a/../ and applying abspath yields an empty path field. -/
theorem claim_c5_counterexample : ¬(∀ u, Reach u → invC5 u) := by
  intro h
  have hr : Reach (URL.abspath
      (URL.init (strOf "") none none (strOf "a/../") (strOf "") (strOf "") none none)) :=
    Reach.abspath _ (Reach.init _ _ _ _ _ _ _ _)
  exact (h _ hr).1 (by decide)

/-- C5 amended: the invariant holds at construction: every URL produced by
the constructor has a non-empty path and params and query fields free of
leading, trailing and doubled delimiters.  It is not preserved by every
normalization operation (abspath can empty a relative path, and escape can
decode an encoded delimiter back into a field). -/
theorem claim_c5_amended :
    ∀ scheme host port path params query fragment userinfo,
      invC5 (URL.init scheme host port path params query fragment userinfo) := by
  intro scheme host port path params query fragment userinfo
  refine ⟨?_, ?_, ?_⟩
  · simp only [URL.init]
    by_cases hp : path = []
    · rw [if_pos hp]
      decide
    · rw [if_neg hp]
      exact hp
  · exact stripOnce_head_ne _ _ (noDoubleB_collapseRuns _ _)
  · exact stripOnce_head_ne _ _ (noDoubleB_collapseRuns _ _)

/-! ## Idempotence of abspath: string level lemmas -/

theorem collapseRuns_fix (d : Byte) (s : Str) (h : noDoubleB d s = true) :
    collapseRuns d s = s := by
  induction s with
  | nil => rfl
  | cons a s1 ih =>
    cases s1 with
    | nil => rfl
    | cons b rest =>
      have hcond : ¬(a = d ∧ b = d) := by
        simp only [noDoubleB] at h
        intro hc
        rw [if_pos hc] at h
        exact absurd h (by simp)
      simp only [collapseRuns, if_neg hcond]
      rw [ih (noDoubleB_tail d a _ h)]

theorem noDoubleB_of_not_mem (d : Byte) (s : Str) (h : d ∉ s) : noDoubleB d s = true := by
  induction s with
  | nil => rfl
  | cons a s1 ih =>
    cases s1 with
    | nil => rfl
    | cons b rest =>
      have ha : ¬(a = d) := fun he => h (by simp [he])
      simp only [noDoubleB, if_neg (fun hc : _ ∧ _ => ha hc.1)]
      exact ih (fun hm => h (List.mem_cons_of_mem a hm))

theorem noDoubleB_append_sep (d : Byte) (s r : Str) (hs : d ∉ s)
    (hr : noDoubleB d r = true) (hrh : r.head? ≠ some d) :
    noDoubleB d (s ++ d :: r) = true := by
  induction s with
  | nil =>
    simp only [List.nil_append]
    cases r with
    | nil => rfl
    | cons x xs =>
      have hx : ¬(x = d) := by
        intro he
        exact hrh (by simp [he])
      simp only [noDoubleB, if_neg (fun hc : _ ∧ _ => hx hc.2)]
      exact hr
  | cons c cs ih =>
    have hc : ¬(c = d) := fun he => hs (by simp [he])
    have hcs : d ∉ cs := fun hm => hs (List.mem_cons_of_mem c hm)
    have ihr := ih hcs
    rcases hcs2 : cs ++ d :: r with _ | ⟨x, xs⟩
    · simp at hcs2
    · rw [List.cons_append, hcs2]
      simp only [noDoubleB, if_neg (fun hcc : _ ∧ _ => hc hcc.1)]
      rw [← hcs2]
      exact ihr

theorem noDoubleB_append_delim (d : Byte) (s : Str) (h : noDoubleB d s = true)
    (hl : s.getLast? ≠ some d) : noDoubleB d (s ++ [d]) = true := by
  induction s with
  | nil => rfl
  | cons a s1 ih =>
    cases s1 with
    | nil =>
      have ha : ¬(a = d) := by simpa using hl
      simp only [List.cons_append, List.nil_append, noDoubleB,
        if_neg (fun hc : _ ∧ _ => ha hc.1)]
    | cons b rest =>
      have hcond : ¬(a = d ∧ b = d) := by
        simp only [noDoubleB] at h
        intro hc
        rw [if_pos hc] at h
        exact absurd h (by simp)
      have hl2 : (b :: rest).getLast? ≠ some d := by
        rw [← List.getLast?_cons_cons (a := a)]
        exact hl
      have ihr := ih (noDoubleB_tail d a _ h) hl2
      rw [List.cons_append]
      rcases hx : (b :: rest) ++ [d] with _ | ⟨x, xs⟩
      · simp at hx
      · have hx2 := hx
        rw [List.cons_append] at hx2
        simp only [List.cons.injEq] at hx2
        obtain ⟨hxb, hxs⟩ := hx2
        simp only [noDoubleB,
          if_neg (fun hcc : _ ∧ _ => hcond ⟨hcc.1, by rw [hxb]; exact hcc.2⟩)]
        rw [List.cons_append, hxb, hxs] at ihr
        exact ihr

theorem joinB_append_nil (d : Byte) (us : List Str) (h : us ≠ []) :
    joinB d (us ++ [[]]) = joinB d us ++ [d] := by
  induction us with
  | nil => exact absurd rfl h
  | cons s ts ih =>
    cases ts with
    | nil => simp [joinB]
    | cons t ts2 =>
      rw [List.cons_append, joinB_cons_ne d s _ (by simp), joinB_cons_ne d s (t :: ts2) (by simp),
        ih (by simp)]
      simp

theorem joinB_cons_ne_nil (d : Byte) (t : Str) (ts : List Str) (ht : t ≠ []) :
    joinB d (t :: ts) ≠ [] := by
  cases ts with
  | nil => simpa [joinB] using ht
  | cons a as =>
    rw [joinB_cons_ne d t _ (by simp)]
    simp

theorem joinB_head (d : Byte) (t : Str) (ts : List Str) (ht : t ≠ []) :
    (joinB d (t :: ts)).head? = t.head? := by
  cases ts with
  | nil => rfl
  | cons a as =>
    rw [joinB_cons_ne d t _ (by simp)]
    cases t with
    | nil => exact absurd rfl ht
    | cons c cs => rfl

theorem joinB_clean (d : Byte) (us : List Str) (hne : tailNE us)
    (hns : ∀ x ∈ us, d ∉ x) :
    noDoubleB d (joinB d us) = true ∧ (joinB d us).getLast? ≠ some d := by
  induction us with
  | nil => exact ⟨rfl, by simp [joinB]⟩
  | cons s ts ih =>
    cases ts with
    | nil =>
      refine ⟨noDoubleB_of_not_mem d s (hns s (by simp)), ?_⟩
      intro hcontra
      have hd : d ∈ s := by
        apply List.mem_of_mem_getLast? (l := s)
        have : joinB d [s] = s := rfl
        rw [this] at hcontra
        simp [hcontra]
      exact hns s (by simp) hd
    | cons t ts2 =>
      have ht : t ≠ [] := hne t (by simp)
      have hne2 : tailNE (t :: ts2) := by
        intro x hx
        exact hne x (List.mem_cons_of_mem t hx)
      have hns2 : ∀ x ∈ t :: ts2, d ∉ x := fun x hx => hns x (List.mem_cons_of_mem s hx)
      obtain ⟨ih1, ih2⟩ := ih hne2 hns2
      rw [joinB_cons_ne d s _ (by simp)]
      constructor
      · apply noDoubleB_append_sep d s _ (hns s (by simp)) ih1
        rw [joinB_head d t ts2 ht]
        intro hc
        cases t with
        | nil => exact ht rfl
        | cons c cs =>
          have hcd : c = d := by simpa using hc
          exact hns2 (c :: cs) (by simp) (by simp [hcd])
      · have hjne := joinB_cons_ne_nil d t ts2 ht
        rw [List.getLast?_append_of_ne_nil s (by simp)]
        rcases hj : joinB d (t :: ts2) with _ | ⟨x, xs⟩
        · exact absurd hj hjne
        · rw [List.getLast?_cons_cons, ← hj]
          exact ih2

/-! ## Idempotence of abspath: the segment walk -/

theorem tailNE_dropLast (l : List Str) (h : tailNE l) : tailNE l.dropLast := by
  intro x hx
  apply h
  cases l with
  | nil => simp at hx
  | cons a t =>
    cases t with
    | nil => simp at hx
    | cons b t2 =>
      simp only [List.dropLast, List.tail_cons] at hx ⊢
      exact (List.dropLast_sublist (b :: t2)).subset hx

theorem tailNE_append (l : List Str) (p : Str) (hp : p ≠ []) (h : tailNE l) :
    tailNE (l ++ [p]) := by
  intro x hx
  cases l with
  | nil => simp at hx
  | cons a t =>
    simp only [List.cons_append, List.tail_cons] at hx
    rcases List.mem_append.mp hx with h1 | h1
    · exact h x h1
    · have : x = p := by simpa using h1
      subst this
      exact hp

theorem absStep_dotdot (acc : List Str × Bool) :
    absStep acc (strOf "..") = (acc.1.dropLast, true) := by
  unfold absStep
  rw [if_pos rfl]

theorem absStep_dot (acc : List Str × Bool) : absStep acc (strOf ".") = (acc.1, true) := by
  unfold absStep
  rw [if_neg (by decide), if_pos rfl]

theorem absStep_other (acc : List Str × Bool) (p : Str) (h1 : ¬(p = strOf ".."))
    (h2 : ¬(p = strOf ".")) : absStep acc p = (acc.1 ++ [p], false) := by
  unfold absStep
  rw [if_neg h1, if_neg h2]

theorem foldl_absStep_no_dots (parts : List Str) (acc : List Str × Bool)
    (h : ∀ p ∈ parts, ¬(p = strOf "..") ∧ ¬(p = strOf ".")) :
    parts.foldl absStep acc = (acc.1 ++ parts, if parts.isEmpty then acc.2 else false) := by
  induction parts generalizing acc with
  | nil => simp
  | cons p ps ih =>
    have hp := h p (List.mem_cons_self p ps)
    rw [List.foldl_cons, absStep_other acc p hp.1 hp.2,
      ih _ (fun q hq => h q (List.mem_cons_of_mem p hq))]
    cases ps <;> simp

theorem foldl_absStep_kept (parts : List Str) (acc : List Str × Bool)
    (hparts : ∀ p ∈ parts, byte 47 ∉ p)
    (hacc : ∀ x ∈ acc.1, keptPart x) :
    ∀ x ∈ (parts.foldl absStep acc).1, keptPart x := by
  induction parts generalizing acc with
  | nil => exact hacc
  | cons p ps ih =>
    rw [List.foldl_cons]
    apply ih _ (fun q hq => hparts q (List.mem_cons_of_mem p hq))
    by_cases h1 : p = strOf ".."
    · rw [h1, absStep_dotdot]
      intro x hx
      exact hacc x ((List.dropLast_sublist acc.1).subset hx)
    · by_cases h2 : p = strOf "."
      · rw [h2, absStep_dot]
        exact hacc
      · rw [absStep_other acc p h1 h2]
        intro x hx
        rcases List.mem_append.mp hx with hx1 | hx1
        · exact hacc x hx1
        · have hxp : x = p := by simpa using hx1
          subst hxp
          exact ⟨hparts x (List.mem_cons_self _ _), h1, h2⟩

theorem foldl_absStep_tailNE (parts : List Str) (acc : List Str × Bool)
    (hparts : ∀ p ∈ parts, p ≠ [])
    (hacc : tailNE acc.1) :
    tailNE (parts.foldl absStep acc).1 := by
  induction parts generalizing acc with
  | nil => exact hacc
  | cons p ps ih =>
    rw [List.foldl_cons]
    apply ih _ (fun q hq => hparts q (List.mem_cons_of_mem p hq))
    by_cases h1 : p = strOf ".."
    · rw [h1, absStep_dotdot]
      exact tailNE_dropLast _ hacc
    · by_cases h2 : p = strOf "."
      · rw [h2, absStep_dot]
        exact hacc
      · rw [absStep_other acc p h1 h2]
        exact tailNE_append _ p (hparts p (List.mem_cons_self _ _)) hacc

theorem splitB_mid_ne (d : Byte) (s : Str) (h : noDoubleB d s = true) :
    (s.head? ≠ some d → ∀ x ∈ (splitB d s).dropLast, x ≠ []) ∧
    (∀ x ∈ ((splitB d s).tail).dropLast, x ≠ []) := by
  induction s with
  | nil =>
    constructor
    · intro _ x hx
      simp [splitB] at hx
    · intro x hx
      simp [splitB] at hx
  | cons c rest ih =>
    have hrest := noDoubleB_tail d c rest h
    obtain ⟨ih1, ih2⟩ := ih hrest
    constructor
    · intro hc x hx
      have hcd : ¬(c = d) := by
        intro he
        exact hc (by simp [he])
      rcases hsp : splitB d rest with _ | ⟨s0, ss⟩
      · exact absurd hsp (splitB_ne_nil d rest)
      · simp only [splitB, if_neg hcd, hsp] at hx
        cases ss with
        | nil => simp at hx
        | cons t ts =>
          simp only [List.dropLast] at hx
          rcases List.mem_cons.mp hx with h1 | h1
          · subst h1
            simp
          · apply ih2
            rw [hsp]
            simpa using h1
    · by_cases hcd : c = d
      · have hrh : rest.head? ≠ some d := by
          cases rest with
          | nil => simp
          | cons b r2 =>
            have hcond : ¬(c = d ∧ b = d) := by
              simp only [noDoubleB] at h
              intro hcc
              rw [if_pos hcc] at h
              exact absurd h (by simp)
            intro hb
            exact hcond ⟨hcd, by simpa using hb⟩
        intro x hx
        simp only [splitB, if_pos hcd, List.tail_cons] at hx
        exact ih1 hrh x hx
      · intro x hx
        rcases hsp : splitB d rest with _ | ⟨s0, ss⟩
        · exact absurd hsp (splitB_ne_nil d rest)
        · simp only [splitB, if_neg hcd, hsp, List.tail_cons] at hx
          apply ih2
          rw [hsp]
          simpa using hx

theorem render_dir_clean (us2 : List Str) (hne : tailNE us2)
    (hkept : ∀ x ∈ us2, keptPart x) :
    noDoubleB (byte 47) (joinB (byte 47) us2 ++ [byte 47]) = true ∧
    ∀ x ∈ splitB (byte 47) (joinB (byte 47) us2 ++ [byte 47]),
      ¬(x = strOf "..") ∧ ¬(x = strOf ".") := by
  have hns : ∀ x ∈ us2, byte 47 ∉ x := fun x hx => (hkept x hx).1
  by_cases hus : us2 = []
  · subst hus
    exact ⟨by decide, by decide⟩
  · obtain ⟨hclean1, hclean2⟩ := joinB_clean (byte 47) us2 hne hns
    constructor
    · exact noDoubleB_append_delim _ _ hclean1 hclean2
    · intro x hx
      rw [splitB_concat_delim, splitB_joinB _ _ hus hns] at hx
      rcases List.mem_append.mp hx with h1 | h1
      · exact ⟨(hkept x h1).2.1, (hkept x h1).2.2⟩
      · have hx0 : x = [] := by simpa using h1
        subst hx0
        exact ⟨by decide, by decide⟩

theorem render_clean (us2 : List Str) (hne : tailNE us2) (hus : us2 ≠ [])
    (hkept : ∀ x ∈ us2, keptPart x) :
    noDoubleB (byte 47) (joinB (byte 47) us2) = true ∧
    ∀ x ∈ splitB (byte 47) (joinB (byte 47) us2),
      ¬(x = strOf "..") ∧ ¬(x = strOf ".") := by
  have hns : ∀ x ∈ us2, byte 47 ∉ x := fun x hx => (hkept x hx).1
  obtain ⟨h1, _⟩ := joinB_clean (byte 47) us2 hne hns
  refine ⟨h1, ?_⟩
  intro x hx
  rw [splitB_joinB _ _ hus hns] at hx
  exact ⟨(hkept x hx).2.1, (hkept x hx).2.2⟩

theorem abspath_fix (r : Str) (h1 : noDoubleB (byte 47) r = true)
    (h2 : ∀ x ∈ splitB (byte 47) r, ¬(x = strOf "..") ∧ ¬(x = strOf ".")) :
    abspathChars r = r := by
  simp only [abspathChars, collapseRuns_fix _ _ h1]
  rw [foldl_absStep_no_dots _ _ h2]
  simp [joinB_splitB]

theorem abspath_out (p : Str) :
    noDoubleB (byte 47) (abspathChars p) = true ∧
    ∀ x ∈ splitB (byte 47) (abspathChars p), ¬(x = strOf "..") ∧ ¬(x = strOf ".") := by
  have hnd : noDoubleB (byte 47) (collapseRuns (byte 47) p) = true := noDoubleB_collapseRuns _ _
  have hmid := splitB_mid_ne (byte 47) _ hnd
  have hns : ∀ q ∈ splitB (byte 47) (collapseRuns (byte 47) p), byte 47 ∉ q := mem_splitB _ _
  rcases List.eq_nil_or_concat (splitB (byte 47) (collapseRuns (byte 47) p)) with hnil | hcc
  · exact absurd hnil (splitB_ne_nil _ _)
  obtain ⟨l, a, hconcat⟩ := hcc
  rw [List.concat_eq_append] at hconcat
  have hlmem : ∀ q ∈ l, byte 47 ∉ q := fun q hq => hns q (hconcat ▸ List.mem_append_left _ hq)
  have hamem : byte 47 ∉ a := hns a (hconcat ▸ List.mem_append_right _ (by simp))
  have hltail : ∀ x ∈ l.tail, x ≠ [] := by
    intro x hx
    cases l with
    | nil => simp at hx
    | cons p0 mid =>
      apply hmid.2 x
      rw [hconcat]
      simp only [List.cons_append, List.tail_cons]
      rw [List.dropLast_concat]
      simpa using hx
  have hmidne : tailNE (l.foldl absStep ([], false)).1 := by
    cases l with
    | nil =>
      intro x hx
      simp at hx
    | cons p0 mid =>
      rw [List.foldl_cons]
      apply foldl_absStep_tailNE mid _ (fun q hq => hltail q hq)
      by_cases h1 : p0 = strOf ".."
      · rw [h1, absStep_dotdot]
        intro x hx
        simp at hx
      · by_cases h2 : p0 = strOf "."
        · rw [h2, absStep_dot]
          intro x hx
          simp at hx
        · rw [absStep_other _ _ h1 h2]
          intro x hx
          simp at hx
  have hmidkept : ∀ x ∈ (l.foldl absStep ([], false)).1, keptPart x := by
    apply foldl_absStep_kept l _ hlmem
    intro x hx
    simp at hx
  have hfold : (splitB (byte 47) (collapseRuns (byte 47) p)).foldl absStep ([], false)
      = absStep (l.foldl absStep ([], false)) a := by
    rw [hconcat, List.foldl_append, List.foldl_cons, List.foldl_nil]
  simp only [abspathChars, hfold]
  by_cases ha1 : a = strOf ".."
  · rw [ha1, absStep_dotdot]
    simp only [if_pos rfl]
    exact render_dir_clean _ (tailNE_dropLast _ hmidne)
      (fun x hx => hmidkept x ((List.dropLast_sublist _).subset hx))
  · by_cases ha2 : a = strOf "."
    · rw [ha2, absStep_dot]
      simp only [if_pos rfl]
      exact render_dir_clean _ hmidne hmidkept
    · rw [absStep_other _ _ ha1 ha2]
      simp only [Bool.false_eq_true, if_neg (by simp : ¬(False)), List.append_nil]
      by_cases hanil : a = []
      · subst hanil
        rcases hus : (l.foldl absStep ([], false)).1 with _ | ⟨u0, urest⟩
        · exact ⟨by decide, by decide⟩
        · rw [← hus, joinB_append_nil _ _ (by rw [hus]; simp)]
          exact render_dir_clean _ hmidne hmidkept
      · apply render_clean _ (tailNE_append _ a hanil hmidne) (by simp)
        intro x hx
        rcases List.mem_append.mp hx with h1 | h1
        · exact hmidkept x h1
        · have hxa : x = a := by simpa using h1
          subst hxa
          exact ⟨hamem, ha1, ha2⟩

theorem abspathChars_idem (p : Str) : abspathChars (abspathChars p) = abspathChars p := by
  obtain ⟨h1, h2⟩ := abspath_out p
  exact abspath_fix _ h1 h2

theorem abspath_idem (u : URLRec) : URL.abspath (URL.abspath u) = URL.abspath u := by
  simp [URL.abspath, abspathChars_idem]

/-! ## Claim theorems: abspath -/

/-- C3 counterexample: the claim says the path /a/../../b becomes /b under
abspath; in the code the second double-dot segment pops the empty segment
that encodes the leading slash, so the path becomes b. -/
theorem claim_c3_counterexample :
    (URL.abspath exAbs).path = strOf "b" ∧ (URL.abspath exAbs).path ≠ strOf "/b" := by decide

/-- C3 amended: abspath collapses slash runs and resolves dot and double-dot
segments; /a/b/../c becomes /a/c, /a/../../b becomes b (a double dot at the
root consumes the empty leading segment and never errors), /a/./b/ becomes
/a/b/, /a//b becomes /a/b; the directory slash is appended exactly when the
last processed segment was a dot or a double dot. -/
theorem claim_c3_amended :
    abspathChars (strOf "/a/b/../c") = strOf "/a/c" ∧
    abspathChars (strOf "/a/../../b") = strOf "b" ∧
    abspathChars (strOf "/a/./b/") = strOf "/a/b/" ∧
    abspathChars (strOf "/a//b") = strOf "/a/b" ∧
    (∀ p : Str,
      abspathChars p =
        joinB (byte 47)
            (((splitB (byte 47) (collapseRuns (byte 47) p)).foldl absStep ([], false)).1) ++
          (if (splitB (byte 47) (collapseRuns (byte 47) p)).getLast? = some (strOf "..")
              ∨ (splitB (byte 47) (collapseRuns (byte 47) p)).getLast? = some (strOf ".")
            then [byte 47] else [])) := by
  refine ⟨by decide, by decide, by decide, by decide, ?_⟩
  intro p
  simp only [abspathChars]
  rw [foldl_absStep_flag _ (splitB_ne_nil _ _)]
  simp

/-! ## Claim theorems: idempotence -/

/-- C6: abspath, canonical and escape are each idempotent: applying any of
them twice to a URL gives the same result as applying it once. -/
theorem claim_c6_idempotence (u : URLRec) :
    URL.abspath (URL.abspath u) = URL.abspath u ∧
    URL.canonical (URL.canonical u) = URL.canonical u ∧
    URL.escape (URL.escape u) = URL.escape u :=
  ⟨abspath_idem u, canonical_idem u, escape_idem u⟩

/-! ## Claim theorems: equivalence -/

/-- C1 counterexample: with an explicit port 0 on one side and an explicit
default port 80 on the other and all other fields equal, equiv returns true,
because a port equal to 0 is falsy in the port comparison of the code; the
condition exactly as the claim words it is false there, since the two sides
carry different explicit ports. -/
theorem claim_c1_counterexample :
    URL.equiv exPortZero exPortDefault = true ∧ ¬equivClaim exPortZero exPortDefault := by
  constructor
  · decide
  · unfold equivClaim portsMatchClaim
    decide

/-- C1 amended: equiv returns true exactly when, after applying the fixed
chain canonical, defrag, abspath, escape to both operands, the scheme, host,
path, params and query fields agree and the ports match under the rule
amended for truthiness: the two port fields are exactly equal, or exactly
one side has a truthy (non-zero) explicit port while the other side has an
absent or zero port, and the truthy port equals the known default port for
the scheme of its own side (http 80, https 443); the three examples of the
claim evaluate as it states. -/
theorem claim_c1_amended :
    (∀ u v, URL.equiv u v = true ↔ equivAmended u v) ∧
    URL.equiv (URL.parseResult exSplitA) (URL.parseResult exSplitB) = true ∧
    URL.equiv (URL.parseResult exQueryBA) (URL.parseResult exQueryAB) = true ∧
    URL.equiv (URL.parseResult exHttpA) (URL.parseResult exHttpsA) = false := by
  refine ⟨?_, by decide, by decide, by decide⟩
  intro u v
  simp only [URL.equiv, equivAmended, portsMatchAmended]
  by_cases hA : (pipeline u).scheme = (pipeline v).scheme ∧
      (pipeline u).host = (pipeline v).host ∧ (pipeline u).path = (pipeline v).path ∧
      (pipeline u).params = (pipeline v).params ∧ (pipeline u).query = (pipeline v).query
  · rw [if_pos hA]
    cases htu : truthyPort (pipeline u).port with
    | false =>
      cases htv : truthyPort (pipeline v).port with
      | false =>
        rw [if_neg (by simp [htu]), if_neg (by simp [htv])]
        simp only [decide_eq_true_eq]
        constructor
        · intro hd
          exact ⟨hA, Or.inl hd⟩
        · rintro ⟨_, hport⟩
          rcases hport with h | h | h
          · exact h
          · exact absurd h.1 (by simp [htu])
          · exact absurd h.1 (by simp [htv])
      | true =>
        rw [if_neg (by simp [htu]), if_pos ⟨rfl, by simp [htu]⟩]
        simp only [decide_eq_true_eq]
        constructor
        · intro hd
          exact ⟨hA, Or.inr (Or.inr ⟨by simp, by simp, hd⟩)⟩
        · rintro ⟨_, hport⟩
          rcases hport with h | h | h
          · exfalso
            rw [h] at htu
            rw [htu] at htv
            exact Bool.false_ne_true htv
          · exact absurd h.1 (by simp [htu])
          · exact h.2.2
    | true =>
      cases htv : truthyPort (pipeline v).port with
      | false =>
        rw [if_pos ⟨rfl, by simp [htv]⟩]
        simp only [decide_eq_true_eq]
        constructor
        · intro hd
          exact ⟨hA, Or.inr (Or.inl ⟨by simp, by simp, hd⟩)⟩
        · rintro ⟨_, hport⟩
          rcases hport with h | h | h
          · exfalso
            rw [h] at htu
            rw [htv] at htu
            exact Bool.false_ne_true htu
          · exact h.2.2
          · exact absurd h.1 (by simp [htv])
      | true =>
        rw [if_neg (by simp [htv]), if_neg (by simp [htu])]
        simp only [decide_eq_true_eq]
        constructor
        · intro hd
          exact ⟨hA, Or.inl hd⟩
        · rintro ⟨_, hport⟩
          rcases hport with h | h | h
          · exact h
          · exact absurd h.2.1 (by simp [htv])
          · exact absurd h.2.1 (by simp [htu])
  · rw [if_neg hA]
    constructor
    · intro h
      exact absurd h (by simp)
    · rintro ⟨hfields, _⟩
      exact absurd hfields hA

end Urlpy
